import Mathlib

/-!
Verification of the Files2Clipboard tool (src/Files2Clipboard.py).

Strings are modelled as lists of characters; Python functions over text are
embedded as Lean functions over `List Char`.  Machine integers do not occur:
all counts are natural numbers.
-/

/-- Embeds the fallback `_count_tokens` (src lines 54-56):
`int(len(text) * TOKENS_PER_CHAR_EST)` with the constant 0.25.
For every natural n representable in an IEEE double (all practical string
lengths), `n * 0.25` is exact (0.25 is a power of two) and `int` truncates,
so the result is exactly `n / 4` in natural-number division. -/
def count_tokens (text : List Char) : Nat :=
  text.length / 4

/-- The set of characters Python `str.splitlines` treats as line breaks:
LF, CR, VT, FF, FS, GS, RS, NEL, LINE SEPARATOR, PARAGRAPH SEPARATOR. -/
def isLineBreak (c : Char) : Bool :=
  c == ('\n') || c == ('\r') || c == ('\x0b') || c == ('\x0c') ||
  c == ('\x1c') || c == ('\x1d') || c == ('\x1e') || c == ('\x85') ||
  c == ('\u2028') || c == ('\u2029')

/-- Accumulator-passing core of Python `str.splitlines(keepends=True)`:
`acc` holds the (reversed) characters of the line being scanned. A CR
immediately followed by LF ends a line with both characters kept. -/
def splitlinesAux : List Char → List Char → List (List Char)
  | acc, [] => if acc = [] then [] else [acc.reverse]
  | acc, [c] =>
    if isLineBreak c then [acc.reverse ++ [c]] else [(c :: acc).reverse]
  | acc, c :: c2 :: rest =>
    if c = ('\r') then
      if c2 = ('\n') then (acc.reverse ++ [c, c2]) :: splitlinesAux [] rest
      else (acc.reverse ++ [c]) :: splitlinesAux [] (c2 :: rest)
    else if isLineBreak c then (acc.reverse ++ [c]) :: splitlinesAux [] (c2 :: rest)
    else splitlinesAux (c :: acc) (c2 :: rest)

/-- Python `text.splitlines(keepends=True)` as used by `_split_text`
(src line 305). -/
def splitlines (text : List Char) : List (List Char) :=
  splitlinesAux [] text

/-- Loop body of `_split_text` (src lines 302-314): greedy accumulation of
lines into `buf` with running token total `bufTok`; a chunk is closed when
the buffer is non-empty and adding the next line would exceed the ceiling. -/
def splitTextGo (maxTokens : Nat) : List (List Char) → List (List Char) → Nat → List (List Char)
  | [], buf, _ => if buf = [] then [] else [buf.flatten]
  | line :: rest, buf, bufTok =>
    let tok := count_tokens line
    if buf ≠ [] ∧ bufTok + tok > maxTokens then
      buf.flatten :: splitTextGo maxTokens rest [line] tok
    else
      splitTextGo maxTokens rest (buf ++ [line]) (bufTok + tok)

/-- Embeds `_split_text(text, max_tokens)` (src lines 302-314). -/
def splitText (text : List Char) (maxTokens : Nat) : List (List Char) :=
  splitTextGo maxTokens (splitlines text) [] 0

/-- Result type of `_filter_by_technology` (src lines 202-234): the Python
function returns either the literal string `".*"` (the all-extensions
sentinel) or a list of extension / literal-filename suffixes. -/
inductive ExtFilter where
  | all
  | exts (l : List (List Char))
deriving DecidableEq

/-- The keep-condition of the extension filter in `_read_files_into_buffer`
(src lines 187-190): an entry survives when the filter is the all-sentinel or
some filter entry is a suffix of the file name (Python `str.endswith`). -/
def extMatch : ExtFilter → List Char → Bool
  | ExtFilter.all, _ => true
  | ExtFilter.exts l, fname => l.any (fun ext => ext.isSuffixOf fname)

/-- The line count recorded for the content of a file (src line 197):
`data.count("\n") + 1`, computed unconditionally. -/
def recordedLineCount (data : List Char) : Nat :=
  data.count ('\n') + 1

/-- The record string appended per eligible file (src line 198): the f-string
`{root_label}{fname} ({lines} lines)\n{data}\n\n`. -/
def fileRecord (rootLabel fname data : List Char) : List Char :=
  rootLabel ++ fname ++ (" (".toList) ++ ((Nat.repr (recordedLineCount data)).toList) ++
    (" lines)\n".toList) ++ data ++ ("\n\n".toList)

/-- Embeds `_read_files_into_buffer` (src lines 175-199). A directory listing
is modelled as the ordered list of `os.listdir` entries with, for each entry,
`some` of its text content when `read_text` succeeds and `none` when it raises
(undecodable or unreadable files, and subdirectory entries, which always fail
to read as text and are skipped with a warning). The `buffer` parameter
mirrors the caller-owned list the Python function appends to in place. -/
def readFilesIntoBuffer (entries : List (List Char × Option (List Char)))
    (allowedExts : ExtFilter) (rootLabel scriptName : List Char)
    (buffer : List (List Char)) : List (List Char) :=
  match entries with
  | [] => buffer
  | (fname, content) :: rest =>
    if fname = scriptName then
      readFilesIntoBuffer rest allowedExts rootLabel scriptName buffer
    else if extMatch allowedExts fname = false then
      readFilesIntoBuffer rest allowedExts rootLabel scriptName buffer
    else
      match content with
      | none => readFilesIntoBuffer rest allowedExts rootLabel scriptName buffer
      | some data =>
        readFilesIntoBuffer rest allowedExts rootLabel scriptName
          (buffer ++ [fileRecord rootLabel fname data])

/-- Embeds `_relative_label` (src lines 326-328), with the path of the scanned
directory relative to the root represented as its list of components (empty
for the root itself). `str(Path)` joins components with forward slashes. -/
def relativeLabel (rel : List (List Char)) : List Char :=
  if rel = [] then ("./".toList)
  else ("./".toList) ++ List.intercalate ("/".toList) rel ++ ("/".toList)

/-- The `tech_exts` table of `_filter_by_technology` (src lines 206-224), in
source order.  Python dicts preserve insertion order, and only `get` is used,
so an association list is a faithful model. -/
def techExts : List (List Char × List (List Char)) :=
  [(("web".toList), [(".html".toList), (".php".toList), (".js".toList), (".jsx".toList),
      (".css".toList), (".scss".toList), (".sass".toList)]),
   (("react".toList), [(".js".toList), (".jsx".toList), (".ts".toList), (".tsx".toList),
      (".css".toList), (".scss".toList), (".env".toList), ("package.json".toList),
      (".babelrc".toList), (".prettierrc".toList)]),
   (("python".toList), [(".py".toList)]),
   (("java".toList), [(".java".toList)]),
   (("csharp".toList), [(".cs".toList)]),
   (("ruby".toList), [(".rb".toList)]),
   (("go".toList), [(".go".toList)]),
   (("cpp".toList), [(".cpp".toList), (".hpp".toList), (".h".toList)]),
   (("bash".toList), [(".sh".toList)]),
   (("typescript".toList), [(".ts".toList), (".tsx".toList)]),
   (("rust".toList), [(".rs".toList), (".toml".toList), (".rlib".toList), (".cargo".toList)]),
   (("vb".toList), [(".vb".toList)]),
   (("structured-data".toList), [(".yml".toList), (".yaml".toList), (".json".toList)]),
   (("markdown".toList), [(".md".toList), (".markdown".toList)]),
   (("sql".toList), [(".sql".toList), (".psql".toList), (".pgsql".toList), (".ddl".toList),
      (".dml".toList)]),
   (("terraform".toList), [(".tf".toList), (".tf.json".toList), (".tfvars".toList),
      (".tfvars.json".toList), (".hcl".toList), (".tftpl".toList)])]

/-- Embeds `_filter_by_technology(file_extension, technology_filter)` (src
lines 202-234).  `technology_filter` is modelled as the ordered association
list of the dict items; `None` and the empty dict are both falsy in the
Python guard and both correspond to the empty list.  The comprehension
concatenates, in dict iteration order, `tech_exts.get(tech, [])` for each
enabled entry — unknown names contribute the `get` default `[]`. -/
def filter_by_technology (file_extension : List Char)
    (technology_filter : List (List Char × Bool)) : ExtFilter :=
  if technology_filter ≠ [] then
    let selected :=
      (technology_filter.map (fun p =>
        if p.2 then (List.lookup p.1 techExts).getD [] else [])).flatten
    if selected ≠ [] then ExtFilter.exts selected
    else if file_extension ≠ (".*".toList) then ExtFilter.exts [file_extension]
    else ExtFilter.all
  else if file_extension ≠ (".*".toList) then ExtFilter.exts [file_extension]
  else ExtFilter.all

/-- The fixed `global_ignores` baseline of `_filter_directories` (src lines
239-251).  The Python value is a set used only through membership tests, so
a list of its elements is a faithful model. -/
def globalIgnores : List (List Char) :=
  [(".git".toList), (".svn".toList), (".hg".toList), (".bzr".toList),
   ("__pycache__".toList), ("venv".toList), (".venv".toList), ("env".toList),
   (".egg-info".toList),
   ("node_modules".toList), ("bower_components".toList), ("dist".toList),
   ("build".toList), (".cache".toList),
   ("target".toList), ("bin".toList), ("obj".toList), ("pkg".toList),
   ("log".toList), ("logs".toList), ("tmp".toList), ("coverage".toList),
   (".nyc_output".toList),
   (".idea".toList), (".vscode".toList), (".DS_Store".toList), ("vendor".toList),
   (".bundle".toList)]

/-- The `tech_specific` table of `_filter_directories` (src lines 252-264). -/
def techSpecificDirs : List (List Char × List (List Char)) :=
  [(("web".toList), [("public".toList), ("static".toList)]),
   (("react".toList), [("public".toList), ("build".toList)]),
   (("python".toList), [("dist".toList)]),
   (("java".toList), [("build".toList), (".gradle".toList)]),
   (("csharp".toList), [(".vs".toList)]),
   (("ruby".toList), [("tmp".toList)]),
   (("go".toList), [("vendor".toList)]),
   (("rust".toList), [("target".toList)]),
   (("sql".toList), [("migrations".toList), ("migration".toList), ("seeds".toList),
      ("seed".toList), ("database".toList), ("db".toList), ("sql".toList),
      ("ddl".toList), ("dml".toList)]),
   (("terraform".toList), [(".terraform".toList), (".terraform.lock.hcl".toList)])]

/-- Embeds `_filter_directories(technology_filter)` (src lines 237-269) as the
list of excluded directory names: the baseline plus, for each enabled entry,
its technology-specific additions.  Only membership in the result is ever
used, so duplicates are irrelevant. -/
def filter_directories (technology_filter : List (List Char × Bool)) : List (List Char) :=
  globalIgnores ++
    (technology_filter.map (fun p =>
      if p.2 then (List.lookup p.1 techSpecificDirs).getD [] else [])).flatten

mutual
/-- A snapshot of a filesystem subtree.  A directory has a base name, a list
of subdirectories and its non-directory entries in listing order; for each
entry, `some` content when it reads as UTF-8 text and `none` when reading
raises.  (`DirList` is a specialised list so that all traversals are plain
mutual structural recursions.) -/
inductive Dir where
  | mk (dname : List Char) (subdirs : DirList)
      (files : List (List Char × Option (List Char)))
inductive DirList where
  | nil
  | cons (hd : Dir) (tl : DirList)
end

def Dir.dname : Dir → List Char
  | .mk n _ _ => n

def Dir.files : Dir → List (List Char × Option (List Char))
  | .mk _ _ f => f

/-- One `os.walk` yield as consumed by the tool: the path of the visited directory
relative to the scan root (as a component list, empty for the root), its base
name and its file listing. -/
structure Visit where
  rel : List (List Char)
  dname : List Char
  files : List (List Char × Option (List Char))
deriving DecidableEq

mutual
/-- Embeds the pruned `os.walk(root)` traversal shared by `_walk_dirs`
(src lines 148-153) and `_generate_tree` (src lines 159-160): top-down
pre-order, with `dir_names[:] = [d for d in dir_names if d not in excludes]`
rewritten as skipping excluded names before descending (filtering the child
list before iterating it is the same as skipping during iteration).  The root
itself is always visited, whatever its own name. -/
def osWalk (excl : List (List Char)) (rel : List (List Char)) : Dir → List Visit
  | .mk n subs files => ⟨rel, n, files⟩ :: osWalkChildren excl rel subs
def osWalkChildren (excl : List (List Char)) (rel : List (List Char)) :
    DirList → List Visit
  | .nil => []
  | .cons d tl =>
    (if d.dname ∈ excl then [] else osWalk excl (rel ++ [d.dname]) d) ++
      osWalkChildren excl rel tl
end

/-- The per-directory indent of `_generate_tree` (src line 163):
`"│   " * (depth - 1) + ("├── " if depth else "")`; a Python negative string
repeat yields the empty string, exactly as truncated Nat subtraction does. -/
def treeIndent (depth : Nat) : List Char :=
  (List.replicate (depth - 1) ("│   ".toList)).flatten ++
    (if depth ≠ 0 then ("├── ".toList) else [])

/-- The per-file lines of `_generate_tree` (src lines 166-168): connector
`└── ` for the last file of a directory, `├── ` otherwise. -/
def fileTreeLines (indent : List Char) :
    List (List Char × Option (List Char)) → List (List Char)
  | [] => []
  | [f] => [indent ++ ("└── ".toList) ++ f.1]
  | f :: f2 :: rest =>
    (indent ++ ("├── ".toList) ++ f.1) :: fileTreeLines indent (f2 :: rest)

/-- The lines `_generate_tree` emits for one visited directory (src lines
161-168).  The depth is `0` for the root (`relpath` is `"."`) and otherwise
the separator count of the relative path plus one, i.e. the component count;
the displayed base name is the name of the directory. -/
def visitLines (v : Visit) : List (List Char) :=
  (treeIndent v.rel.length ++ v.dname ++ ("/".toList)) ::
    fileTreeLines (treeIndent v.rel.length) v.files

/-- Embeds `_generate_tree(root, excludes)` (src lines 156-169):
`"\n".join(lines)` over the walk. -/
def generateTree (excl : List (List Char)) (root : Dir) : List Char :=
  List.intercalate ("\n".toList) (((osWalk excl [] root).map visitLines).flatten)

mutual
/-- Deletes, recursively, every subdirectory whose name is excluded.  Not part
of the source: used to state that the traversal never looks inside excluded
subtrees. -/
def pruneDir (excl : List (List Char)) : Dir → Dir
  | .mk n subs files => .mk n (pruneChildren excl subs) files
def pruneChildren (excl : List (List Char)) : DirList → DirList
  | .nil => .nil
  | .cons d tl =>
    if d.dname ∈ excl then pruneChildren excl tl
    else .cons (pruneDir excl d) (pruneChildren excl tl)
end

/-- The cancellation test of the delivery loop (src line 293):
`input(...).lower().startswith("q")` — the lowercased reply starts with `q`
exactly when the first character lowercases to `q`. -/
def isQuit (ack : List Char) : Bool :=
  match ack with
  | [] => false
  | c :: _ => c.toLower == ('q')

/-- The interactive loop of `_split_or_copy` (src lines 287-294): each chunk
is committed to the clipboard before its prompt, and a quit reply stops
delivery after the current chunk.  One acknowledgment is consumed per chunk;
a missing acknowledgment is treated as a non-quit reply. -/
def deliverChunks : List (List Char) → List (List Char) → List (List Char)
  | [], _ => []
  | chunk :: rest, [] => chunk :: deliverChunks rest []
  | chunk :: rest, ack :: acks =>
    chunk :: (if isQuit ack then [] else deliverChunks rest acks)

/-- The module-level flag (src line 40). -/
def CHATGPT_SPLIT_GLOBAL : Bool := false

/-- Embeds `_split_or_copy(text, do_split, max_tokens)` (src lines 275-299)
as the sequence of texts committed to the clipboard: the chunk sequence when
splitting is requested and the payload exceeds the ceiling, the whole payload
as a single transfer otherwise. -/
def split_or_copy (text : List Char) (doSplit : Bool) (maxTokens : Nat)
    (acks : List (List Char)) : List (List Char) :=
  if doSplit = true ∧ count_tokens text > maxTokens then
    deliverChunks (splitText text maxTokens) acks
  else [text]

/-- The observable outcome of one invocation: the texts committed to the
clipboard, in order, and whether the nothing-to-copy branch was taken. -/
structure RunResult where
  commits : List (List Char)
  nothingToCopy : Bool
deriving DecidableEq

/-- Embeds `files_to_clipboard` (src lines 62-142).  `rootDisplay` stands for
`str(root)` after `resolve()`; `treeFailed` models the caught exception of
`_generate_tree` (src lines 101-105), which leaves `tree` empty; `acks` are
the interactive replies consumed by the delivery loop. -/
def files_to_clipboard (root : Dir) (rootDisplay : List Char)
    (file_extension : List Char) (subdirectories : Bool)
    (technology_filter : List (List Char × Bool)) (copy_content : Bool)
    (chatgpt_split : Bool) (max_tokens : Nat) (script_name : List Char)
    (treeFailed : Bool) (acks : List (List Char)) : RunResult :=
  let exts := filter_by_technology file_extension technology_filter
  let excludes := filter_directories technology_filter
  let tree := if treeFailed then [] else generateTree excludes root
  if copy_content = false then
    { commits := [("Directory tree of ".toList) ++ rootDisplay ++
        (" (filtered):\n".toList) ++ tree],
      nothingToCopy := false }
  else
    let buffer :=
      if subdirectories then
        (osWalk excludes [] root).foldl
          (fun buf v =>
            readFilesIntoBuffer v.files exts (relativeLabel v.rel) script_name buf) []
      else
        readFilesIntoBuffer root.files exts ("./".toList) script_name []
    if buffer = [] ∧ tree = [] then
      { commits := [], nothingToCopy := true }
    else
      let content :=
        (if subdirectories then
          ("Directory tree of ".toList) ++ rootDisplay ++ (" (filtered):\n".toList) ++
            tree ++ ("\n\n".toList)
        else []) ++ buffer.flatten
      { commits := split_or_copy content (chatgpt_split || CHATGPT_SPLIT_GLOBAL)
          max_tokens acks,
        nothingToCopy := false }

theorem splitlinesAux_flatten :
    ∀ (acc l : List Char), (splitlinesAux acc l).flatten = acc.reverse ++ l := by
  intro acc l
  induction acc, l using splitlinesAux.induct <;>
    simp_all [splitlinesAux]

theorem splitlines_flatten (text : List Char) : (splitlines text).flatten = text := by
  simp [splitlines, splitlinesAux_flatten]

theorem splitTextGo_flatten (maxTokens : Nat) :
    ∀ (lines buf : List (List Char)) (bufTok : Nat),
      (splitTextGo maxTokens lines buf bufTok).flatten = buf.flatten ++ lines.flatten := by
  intro lines
  induction lines with
  | nil =>
    intro buf bufTok
    by_cases h : buf = [] <;> simp [splitTextGo, h]
  | cons line rest ih =>
    intro buf bufTok
    by_cases h : buf ≠ [] ∧ bufTok + count_tokens line > maxTokens
    · simp [splitTextGo, h, ih]
    · simp [splitTextGo, h, ih]

/-- C1: for every text payload and every positive token ceiling, concatenating
in order all chunk strings returned by `_split_text` equals the input text
exactly (lossless, order-preserving splitting). -/
theorem split_text_roundtrip (text : List Char) (maxTokens : Nat)
    (h : 0 < maxTokens) : (splitText text maxTokens).flatten = text := by
  simp [splitText, splitTextGo_flatten, splitlines_flatten]

theorem split_text_roundtrip_witness :
    0 < 2 ∧ (splitText ("ab\ncd\n".toList) 2).flatten = ("ab\ncd\n".toList) :=
  ⟨by decide, split_text_roundtrip ("ab\ncd\n".toList) 2 (by decide)⟩

theorem splitTextGo_chunks (maxTokens : Nat) :
    ∀ (lines buf : List (List Char)),
      (buf = [] ∨ (buf.map count_tokens).sum ≤ maxTokens ∨ ∃ l, buf = [l]) →
      ∀ chunk ∈ splitTextGo maxTokens lines buf ((buf.map count_tokens).sum),
        ∃ ls, ls ≠ [] ∧ ls <:+: (buf ++ lines) ∧ chunk = ls.flatten ∧
          ((ls.map count_tokens).sum ≤ maxTokens ∨
            ∃ l, ls = [l] ∧ maxTokens < count_tokens l) := by
  intro lines
  induction lines with
  | nil =>
    intro buf hbuf chunk hmem
    by_cases h : buf = []
    · simp [splitTextGo, h] at hmem
    · simp only [splitTextGo, if_neg h, List.mem_singleton] at hmem
      subst hmem
      refine ⟨buf, h, ⟨[], [], by simp⟩, rfl, ?_⟩
      rcases hbuf with hbuf | hbuf | ⟨l, rfl⟩
      · exact absurd hbuf h
      · exact Or.inl hbuf
      · by_cases hl : count_tokens l ≤ maxTokens
        · exact Or.inl (by simpa using hl)
        · exact Or.inr ⟨l, rfl, by omega⟩
  | cons line rest ih =>
    intro buf hbuf chunk hmem
    by_cases hc : buf ≠ [] ∧ (buf.map count_tokens).sum + count_tokens line > maxTokens
    · simp only [splitTextGo, if_pos hc, List.mem_cons] at hmem
      rcases hmem with rfl | hmem
      · refine ⟨buf, hc.1, ⟨[], line :: rest, by simp⟩, rfl, ?_⟩
        rcases hbuf with hbuf | hbuf | ⟨l, rfl⟩
        · exact absurd hbuf hc.1
        · exact Or.inl hbuf
        · by_cases hl : count_tokens l ≤ maxTokens
          · exact Or.inl (by simpa using hl)
          · exact Or.inr ⟨l, rfl, by omega⟩
      · have htok : count_tokens line = (([line] : List (List Char)).map count_tokens).sum := by
          simp
        rw [htok] at hmem
        obtain ⟨ls, hne, hinf, hfl, hbd⟩ :=
          ih [line] (Or.inr (Or.inr ⟨line, rfl⟩)) chunk hmem
        refine ⟨ls, hne, ?_, hfl, hbd⟩
        have hsuf : (line :: rest) <:+: buf ++ line :: rest := ⟨buf, [], by simp⟩
        exact (by simpa using hinf : ls <:+: line :: rest).trans hsuf
    · simp only [splitTextGo, if_neg hc] at hmem
      have hsum : (buf.map count_tokens).sum + count_tokens line
          = ((buf ++ [line]).map count_tokens).sum := by
        simp
      rw [hsum] at hmem
      have hbuf2 : buf ++ [line] = [] ∨
          ((buf ++ [line]).map count_tokens).sum ≤ maxTokens ∨
          ∃ l, buf ++ [line] = [l] := by
        push_neg at hc
        by_cases hb : buf = []
        · exact Or.inr (Or.inr ⟨line, by simp [hb]⟩)
        · exact Or.inr (Or.inl (by simpa using hc hb))
      obtain ⟨ls, hne, hinf, hfl, hbd⟩ := ih (buf ++ [line]) hbuf2 chunk hmem
      exact ⟨ls, hne, by simpa using hinf, hfl, hbd⟩

/-- C2 counterexample: with the character-ratio token estimator, four lines of
two characters each accumulate into one chunk at ceiling 1 (each line estimates
to 0 tokens), yet the whole eight-character chunk estimates to 2 tokens.  The
chunk is not a single-line chunk, so the claimed bound on the whole-chunk
estimate fails. -/
theorem split_text_whole_chunk_estimate_exceeds :
    ¬ (∀ chunk ∈ splitText ("a\na\na\na\n".toList) 1,
        (splitlines chunk = [chunk] ∧ 1 < count_tokens chunk) ∨
          count_tokens chunk ≤ 1) := by
  decide

/-- C2 (amended): every chunk produced by `_split_text` is the concatenation of
a non-empty run of consecutive payload lines, and — unless it is a single line
whose own token estimate exceeds the ceiling — the cumulative estimated token
count of its lines (the running total the splitter tracks) is at most the
ceiling.  The bound claimed for the estimator applied to the whole chunk string
fails because the character-ratio estimate is not additive across lines. -/
theorem split_text_chunk_bound (text : List Char) (maxTokens : Nat)
    (h : 0 < maxTokens) :
    ∀ chunk ∈ splitText text maxTokens,
      ∃ ls, ls ≠ [] ∧ ls <:+: splitlines text ∧ chunk = ls.flatten ∧
        ((ls.map count_tokens).sum ≤ maxTokens ∨
          ∃ l, ls = [l] ∧ maxTokens < count_tokens l) := by
  have hgo := splitTextGo_chunks maxTokens (splitlines text) [] (Or.inl rfl)
  intro chunk hmem
  simpa using hgo chunk (by simpa [splitText] using hmem)

theorem split_text_chunk_bound_witness :
    ∃ ls, ls ≠ [] ∧ ls <:+: splitlines ("ab\n".toList) ∧
      ("ab\n".toList) = ls.flatten ∧
      ((ls.map count_tokens).sum ≤ 1 ∨
        ∃ l, ls = [l] ∧ 1 < count_tokens l) :=
  split_text_chunk_bound ("ab\n".toList) 1 (by decide) ("ab\n".toList) (by decide)

theorem splitTextGo_single_oversized (maxTokens : Nat) (l : List Char)
    (hl : maxTokens < count_tokens l) :
    ∀ (rest : List (List Char)) (bufTok : Nat), count_tokens l ≤ bufTok →
      l ∈ splitTextGo maxTokens rest [l] bufTok := by
  intro rest bufTok hle
  cases rest with
  | nil => simp [splitTextGo]
  | cons l2 rest2 =>
    have hc : ([l] : List (List Char)) ≠ [] ∧
        bufTok + count_tokens l2 > maxTokens := by
      refine ⟨by simp, ?_⟩
      omega
    simp [splitTextGo, hc]

theorem splitTextGo_mem_oversized (maxTokens : Nat) (l : List Char)
    (hl : maxTokens < count_tokens l) :
    ∀ (lines buf : List (List Char)) (bufTok : Nat),
      l ∈ lines → l ∈ splitTextGo maxTokens lines buf bufTok := by
  intro lines
  induction lines with
  | nil => intro buf bufTok hmem; simp at hmem
  | cons line rest ih =>
    intro buf bufTok hmem
    by_cases hc : buf ≠ [] ∧ bufTok + count_tokens line > maxTokens
    · rcases List.mem_cons.mp hmem with rfl | hmem2
      · simp only [splitTextGo, if_pos hc]
        exact List.mem_cons_of_mem _
          (splitTextGo_single_oversized maxTokens l hl rest _ le_rfl)
      · simp only [splitTextGo, if_pos hc]
        exact List.mem_cons_of_mem _ (ih [line] _ hmem2)
    · rcases List.mem_cons.mp hmem with rfl | hmem2
      · have hb : buf = [] := by
          by_contra hb
          exact hc ⟨hb, by omega⟩
        subst hb
        simp only [splitTextGo, if_neg hc, List.nil_append]
        exact splitTextGo_single_oversized maxTokens l hl rest _ (by omega)
      · simp only [splitTextGo, if_neg hc]
        exact ih (buf ++ [line]) _ hmem2

/-- C3: any payload line whose own token estimate exceeds the ceiling appears
verbatim in the splitter output as a chunk equal to exactly that one line, and
no line is ever split mid-line: every chunk is the concatenation of a non-empty
run of consecutive payload lines. -/
theorem split_text_oversized_line (text : List Char) (maxTokens : Nat)
    (h : 0 < maxTokens) :
    (∀ l ∈ splitlines text, maxTokens < count_tokens l →
      l ∈ splitText text maxTokens) ∧
    (∀ chunk ∈ splitText text maxTokens,
      ∃ ls, ls ≠ [] ∧ ls <:+: splitlines text ∧ chunk = ls.flatten) := by
  constructor
  · intro l hmem hl
    exact splitTextGo_mem_oversized maxTokens l hl (splitlines text) [] 0 hmem
  · intro chunk hmem
    obtain ⟨ls, hne, hinf, hfl, _⟩ :=
      splitTextGo_chunks maxTokens (splitlines text) [] (Or.inl rfl) chunk
        (by simpa [splitText] using hmem)
    exact ⟨ls, hne, by simpa using hinf, hfl⟩

theorem split_text_oversized_line_witness :
    ("abcdefg\n".toList) ∈ splitText ("abcdefg\n".toList) 1 :=
  (split_text_oversized_line ("abcdefg\n".toList) 1 (by decide)).1
    ("abcdefg\n".toList) (by decide) (by decide)

theorem readFilesIntoBuffer_buffer (entries : List (List Char × Option (List Char)))
    (exts : ExtFilter) (label script : List Char) :
    ∀ buffer, readFilesIntoBuffer entries exts label script buffer
      = buffer ++ readFilesIntoBuffer entries exts label script [] := by
  induction entries with
  | nil => intro buffer; simp [readFilesIntoBuffer]
  | cons e rest ih =>
    intro buffer
    obtain ⟨fname, content⟩ := e
    by_cases h1 : fname = script
    · simp only [readFilesIntoBuffer, if_pos h1]
      exact ih buffer
    · by_cases h2 : extMatch exts fname = false
      · simp only [readFilesIntoBuffer, if_neg h1, if_pos h2]
        exact ih buffer
      · cases content with
        | none =>
          simp only [readFilesIntoBuffer, if_neg h1, if_neg h2]
          exact ih buffer
        | some data =>
          simp only [readFilesIntoBuffer, if_neg h1, if_neg h2, List.nil_append]
          rw [ih (buffer ++ [fileRecord label fname data]),
            ih ([fileRecord label fname data])]
          simp

/-- C4 counterexample: a successfully read empty file is recorded with line
count 1, not 0.  Line 197 computes `data.count("\n") + 1` unconditionally,
so empty content yields 1, and the emitted record reads `(1 lines)`. -/
theorem empty_file_line_count_not_zero :
    recordedLineCount [] ≠ 0 ∧ recordedLineCount [] = 1 ∧
    readFilesIntoBuffer [(("a.py".toList), some [])] ExtFilter.all ("./".toList)
        ("Files2Clipboard.py".toList) []
      = [("./a.py (1 lines)\n\n\n".toList)] := by
  decide

theorem readFilesIntoBuffer_mem (exts : ExtFilter) (label script : List Char) :
    ∀ (entries : List (List Char × Option (List Char)))
      (buffer : List (List Char)) (fname data : List Char),
      (fname, some data) ∈ entries → fname ≠ script →
      extMatch exts fname = true →
      fileRecord label fname data ∈ readFilesIntoBuffer entries exts label script buffer := by
  intro entries
  induction entries with
  | nil => intro buffer fname data hmem; simp at hmem
  | cons e rest ih =>
    intro buffer fname data hmem hself hext
    obtain ⟨f2, c2⟩ := e
    rcases List.mem_cons.mp hmem with heq | hmem2
    · rw [Prod.mk.injEq] at heq
      obtain ⟨rfl, hc⟩ := heq
      subst hc
      have h2 : ¬ (extMatch exts fname = false) := by simp [hext]
      simp only [readFilesIntoBuffer, if_neg hself, if_neg h2]
      rw [readFilesIntoBuffer_buffer]
      simp
    ·
      by_cases h1 : f2 = script
      · simpa [readFilesIntoBuffer, h1] using ih buffer fname data hmem2 hself hext
      · by_cases h2 : extMatch exts f2 = false
        · simpa [readFilesIntoBuffer, h1, h2] using ih buffer fname data hmem2 hself hext
        · cases c2 with
          | none =>
            simpa [readFilesIntoBuffer, h1, h2] using ih buffer fname data hmem2 hself hext
          | some d2 =>
            simp only [readFilesIntoBuffer, if_neg h1, if_neg h2]
            exact ih _ fname data hmem2 hself hext

/-- C4 (amended): for every successfully read file that passes the self-name
and extension filters, the record appended to the buffer carries line count
`data.count of newline + 1` for every content, including empty content
(recorded as 1 line, never 0). -/
theorem line_count_newlines_plus_one (entries : List (List Char × Option (List Char)))
    (exts : ExtFilter) (label script fname data : List Char)
    (hmem : (fname, some data) ∈ entries) (hself : fname ≠ script)
    (hext : extMatch exts fname = true) :
    fileRecord label fname data ∈ readFilesIntoBuffer entries exts label script [] ∧
    fileRecord label fname data =
      label ++ fname ++ (" (".toList) ++
        ((Nat.repr (data.count ('\n') + 1)).toList) ++ (" lines)\n".toList) ++
        data ++ ("\n\n".toList) :=
  ⟨readFilesIntoBuffer_mem exts label script entries [] fname data hmem hself hext, rfl⟩

theorem line_count_newlines_plus_one_witness :
    fileRecord ("./".toList) ("a.py".toList) ("x\ny".toList) ∈
      readFilesIntoBuffer [(("a.py".toList), some ("x\ny".toList))] ExtFilter.all
        ("./".toList) ("Files2Clipboard.py".toList) [] :=
  (line_count_newlines_plus_one [(("a.py".toList), some ("x\ny".toList))]
    ExtFilter.all ("./".toList) ("Files2Clipboard.py".toList) ("a.py".toList)
    ("x\ny".toList) (by decide) (by decide) (by decide)).1

/-- C5: the collector output is exactly, entry by entry in listing order, the
byte-exact record `{rootLabel}{fname} ({lineCount} lines)\n{content}\n\n` for
every entry that passes the self-name filter and the extension filter and is
successfully read; and the root label is `./` for the scan root and
`./<relativePath>/` (forward-slash separators, trailing slash) for a
descendant directory. -/
theorem record_format (entries : List (List Char × Option (List Char)))
    (exts : ExtFilter) (label script : List Char) :
    readFilesIntoBuffer entries exts label script [] =
      entries.filterMap (fun e =>
        if e.1 = script then none
        else if extMatch exts e.1 = false then none
        else
          match e.2 with
          | none => none
          | some data => some (label ++ e.1 ++ (" (".toList) ++
              ((Nat.repr (data.count ('\n') + 1)).toList) ++ (" lines)\n".toList) ++
              data ++ ("\n\n".toList))) ∧
    relativeLabel [] = ("./".toList) ∧
    (∀ rel, rel ≠ [] →
      relativeLabel rel = ("./".toList) ++ List.intercalate ("/".toList) rel ++ ("/".toList)) := by
  refine ⟨?_, by simp [relativeLabel], fun rel hne => by simp [relativeLabel, hne]⟩
  induction entries with
  | nil => simp [readFilesIntoBuffer]
  | cons e rest ih =>
    obtain ⟨fname, content⟩ := e
    by_cases h1 : fname = script
    · simp [readFilesIntoBuffer, h1, ih]
    · by_cases h2 : extMatch exts fname = false
      · simp [readFilesIntoBuffer, h1, h2, ih]
      · cases content with
        | none => simp [readFilesIntoBuffer, h1, h2, ih]
        | some data =>
          simp only [readFilesIntoBuffer, if_neg h1, if_neg h2]
          rw [readFilesIntoBuffer_buffer]
          simp only [List.filterMap_cons, if_neg h1, h2]
          simp [ih, fileRecord, recordedLineCount]

theorem record_format_witness :
    relativeLabel [("sub".toList), ("dir".toList)] = ("./sub/dir/".toList) :=
  ((record_format [] ExtFilter.all ("./".toList) ("x".toList)).2.2
    [("sub".toList), ("dir".toList)] (by decide)).trans (by decide)

theorem selected_eq_enabled_known (tf : List (List Char × Bool)) :
    (tf.map (fun p =>
        if p.2 then (List.lookup p.1 techExts).getD [] else [])).flatten
      = ((tf.filter (fun p => p.2)).filterMap
          (fun p => List.lookup p.1 techExts)).flatten := by
  induction tf with
  | nil => simp
  | cons p rest ih =>
    by_cases hp : p.2
    · cases hl : List.lookup p.1 techExts with
      | none => simp [hp, hl, ih]
      | some l => simp [hp, hl, ih]
    · simp [hp, ih]

/-- C6: when the preset map has at least one enabled entry,
`_filter_by_technology` resolves to the concatenation, in map iteration order,
of the extension list of each enabled known preset (unknown names are silently
dropped and contribute nothing); when that concatenation is empty the result
falls back to the single default extension, or to the all-sentinel when the
default is the all-sentinel. -/
theorem technology_filter_resolution (fe : List Char)
    (tf : List (List Char × Bool)) (h : ∃ p ∈ tf, p.2 = true) :
    filter_by_technology fe tf =
      if ((tf.filter (fun p => p.2)).filterMap
            (fun p => List.lookup p.1 techExts)).flatten = [] then
        (if fe = (".*".toList) then ExtFilter.all else ExtFilter.exts [fe])
      else
        ExtFilter.exts ((tf.filter (fun p => p.2)).filterMap
          (fun p => List.lookup p.1 techExts)).flatten := by
  obtain ⟨p, hmem, hp⟩ := h
  have htf : tf ≠ [] := by rintro rfl; simp at hmem
  unfold filter_by_technology
  rw [if_pos htf]
  simp only [selected_eq_enabled_known]
  by_cases hsel : ((tf.filter (fun p => p.2)).filterMap
      (fun p => List.lookup p.1 techExts)).flatten = []
  · rw [if_pos hsel]
    rw [if_neg (not_not_intro hsel)]
    by_cases hfe : fe = (".*".toList)
    · rw [if_pos hfe, if_neg (not_not_intro hfe)]
    · rw [if_neg hfe, if_pos hfe]
  · rw [if_neg hsel, if_pos hsel]

theorem technology_filter_resolution_witness :
    filter_by_technology (".md".toList)
        [(("python".toList), true), (("unknown-tech".toList), true)]
      = ExtFilter.exts [(".py".toList)] :=
  (technology_filter_resolution (".md".toList)
      [(("python".toList), true), (("unknown-tech".toList), true)]
      (by decide)).trans (by decide)

/-- C8: a directory entry whose name is exactly the source file name
of the running tool never contributes to the content buffer, whatever the extension filter:
the collector computes the same buffer when all such entries are removed from
the listing beforehand.  Equality is exact-name equality, not a pattern test. -/
theorem self_exclusion (entries : List (List Char × Option (List Char)))
    (exts : ExtFilter) (label script : List Char) (buffer : List (List Char)) :
    readFilesIntoBuffer entries exts label script buffer =
      readFilesIntoBuffer (entries.filter (fun e => e.1 != script))
        exts label script buffer := by
  induction entries generalizing buffer with
  | nil => simp
  | cons e rest ih =>
    obtain ⟨fname, content⟩ := e
    by_cases h1 : fname = script
    · simp only [readFilesIntoBuffer, if_pos h1, List.filter_cons]
      simp [h1, ih]
    · simp only [List.filter_cons]
      have hb : ((fname, content).1 != script) = true := by
        simpa using h1
      rw [hb]
      simp only [if_pos trivial]
      by_cases h2 : extMatch exts fname = false
      · simp only [readFilesIntoBuffer, if_neg h1, h2]
        simp [ih]
      · cases content with
        | none =>
          simp only [readFilesIntoBuffer, if_neg h1, h2]
          simp [h2, ih]
        | some data =>
          simp only [readFilesIntoBuffer, if_neg h1, h2]
          simp [h2, ih]

theorem pruneDir_dname (excl : List (List Char)) (d : Dir) :
    (pruneDir excl d).dname = d.dname := by
  cases d
  rfl

mutual
theorem osWalk_mem_shape (excl : List (List Char)) :
    ∀ (d : Dir) (rel : List (List Char)) (v : Visit), v ∈ osWalk excl rel d →
      (v.rel = rel ∧ v.dname = d.dname ∧ v.files = d.files) ∨ v.dname ∉ excl
  | .mk n subs files, rel, v, hmem => by
    rw [osWalk] at hmem
    rcases List.mem_cons.mp hmem with rfl | hmem2
    · exact Or.inl ⟨rfl, rfl, rfl⟩
    · exact Or.inr (osWalkChildren_mem_shape excl subs rel v hmem2)
theorem osWalkChildren_mem_shape (excl : List (List Char)) :
    ∀ (l : DirList) (rel : List (List Char)) (v : Visit),
      v ∈ osWalkChildren excl rel l → v.dname ∉ excl
  | .nil, rel, v, hmem => by
    rw [osWalkChildren] at hmem
    simp at hmem
  | .cons d tl, rel, v, hmem => by
    rw [osWalkChildren] at hmem
    rcases List.mem_append.mp hmem with hmem2 | hmem2
    · by_cases hd : d.dname ∈ excl
      · rw [if_pos hd] at hmem2
        simp at hmem2
      · rw [if_neg hd] at hmem2
        rcases osWalk_mem_shape excl d (rel ++ [d.dname]) v hmem2 with
          ⟨_, hn, _⟩ | hn
        · rw [hn]; exact hd
        · exact hn
    · exact osWalkChildren_mem_shape excl tl rel v hmem2
end

mutual
theorem osWalk_prune (excl : List (List Char)) :
    ∀ (d : Dir) (rel : List (List Char)),
      osWalk excl rel (pruneDir excl d) = osWalk excl rel d
  | .mk n subs files, rel => by
    rw [pruneDir, osWalk, osWalk, osWalkChildren_prune excl subs rel]
theorem osWalkChildren_prune (excl : List (List Char)) :
    ∀ (l : DirList) (rel : List (List Char)),
      osWalkChildren excl rel (pruneChildren excl l) = osWalkChildren excl rel l
  | .nil, rel => by
    rw [pruneChildren]
  | .cons d tl, rel => by
    rw [pruneChildren]
    by_cases hd : d.dname ∈ excl
    · rw [if_pos hd, osWalkChildren, if_pos hd, List.nil_append,
        osWalkChildren_prune excl tl rel]
    · rw [if_neg hd, osWalkChildren, osWalkChildren_prune excl tl rel,
        osWalkChildren, if_neg (pruneDir_dname excl d ▸ hd), if_neg hd,
        pruneDir_dname excl d, osWalk_prune excl d (rel ++ [d.dname])]
end

/-- C7: directory pruning.  First, every directory visited below the root has
a name outside the exclude set, so an excluded directory name never appears as
a directory in the walk sequence (and hence never as a directory line of the
tree, whose lines are generated from the walk).  Second and third, the walk
and the rendered tree are unchanged when every excluded-named subtree is
deleted from the filesystem beforehand, so no directory and no file lying
under an excluded directory name, at any depth, contributes anything to
tree or walk output.  Fourth, the content buffer of the recursive mode is a
fold over the same walk, so no file under an excluded directory reaches the
content output either. -/
theorem directory_pruning (excl : List (List Char)) (root : Dir) :
    (∀ v ∈ osWalk excl [] root, v.rel ≠ [] → v.dname ∉ excl) ∧
    osWalk excl [] (pruneDir excl root) = osWalk excl [] root ∧
    generateTree excl (pruneDir excl root) = generateTree excl root ∧
    (∀ (exts : ExtFilter) (script : List Char),
      (osWalk excl [] (pruneDir excl root)).foldl
        (fun buf v =>
          readFilesIntoBuffer v.files exts (relativeLabel v.rel) script buf) []
      = (osWalk excl [] root).foldl
        (fun buf v =>
          readFilesIntoBuffer v.files exts (relativeLabel v.rel) script buf) []) := by
  refine ⟨?_, osWalk_prune excl root [], ?_, ?_⟩
  · intro v hmem hrel
    rcases osWalk_mem_shape excl root [] v hmem with ⟨hr, _, _⟩ | hn
    · exact absurd hr hrel
    · exact hn
  · unfold generateTree
    rw [osWalk_prune excl root []]
  · intro exts script
    rw [osWalk_prune excl root []]

theorem directory_pruning_witness :
    (Visit.mk [("src".toList)] ("src".toList) []).dname ∉ [("node_modules".toList)] :=
  (directory_pruning [("node_modules".toList)]
      (Dir.mk ("r".toList)
        (DirList.cons (Dir.mk ("src".toList) DirList.nil []) DirList.nil) [])).1
    (Visit.mk [("src".toList)] ("src".toList) []) (by decide) (by decide)

/-- C9: when content inclusion is requested and both the rendered tree string
and the file-record buffer are empty, the run reports nothing to copy and
commits nothing to the clipboard. -/
theorem nothing_to_copy_no_transfer (root : Dir) (rootDisplay fe : List Char)
    (subdirs : Bool) (tf : List (List Char × Bool)) (split : Bool)
    (maxT : Nat) (script : List Char) (treeFailed : Bool)
    (acks : List (List Char))
    (htree : (if treeFailed then []
      else generateTree (filter_directories tf) root) = [])
    (hbuf : (if subdirs then
        (osWalk (filter_directories tf) [] root).foldl
          (fun buf v =>
            readFilesIntoBuffer v.files (filter_by_technology fe tf)
              (relativeLabel v.rel) script buf) []
      else
        readFilesIntoBuffer root.files (filter_by_technology fe tf)
          ("./".toList) script []) = []) :
    files_to_clipboard root rootDisplay fe subdirs tf true split maxT script
        treeFailed acks
      = { commits := [], nothingToCopy := true } := by
  unfold files_to_clipboard
  rw [if_neg (by simp), if_pos ⟨hbuf, htree⟩]

theorem nothing_to_copy_no_transfer_witness :
    files_to_clipboard (Dir.mk ("r".toList) DirList.nil []) ("/r".toList)
        (".*".toList) false [] true false 50000 ("Files2Clipboard.py".toList)
        true []
      = { commits := [], nothingToCopy := true } :=
  nothing_to_copy_no_transfer (Dir.mk ("r".toList) DirList.nil []) ("/r".toList)
    (".*".toList) false [] false 50000 ("Files2Clipboard.py".toList) true []
    (by decide) (by decide)

/-- C10: in non-recursive content mode, when no file passes the filters but
the rendered tree string is non-empty, the nothing-to-copy branch is not
taken: exactly one transfer to the clipboard occurs and its payload is the
empty string, since the tree header is prepended only in recursive mode and
the buffer is empty. -/
theorem empty_payload_transfer (root : Dir) (rootDisplay fe : List Char)
    (tf : List (List Char × Bool)) (split : Bool) (maxT : Nat)
    (script : List Char) (treeFailed : Bool) (acks : List (List Char))
    (hbuf : readFilesIntoBuffer root.files (filter_by_technology fe tf)
      ("./".toList) script [] = [])
    (htree : (if treeFailed then []
      else generateTree (filter_directories tf) root) ≠ []) :
    files_to_clipboard root rootDisplay fe false tf true split maxT script
        treeFailed acks
      = { commits := [[]], nothingToCopy := false } := by
  unfold files_to_clipboard
  rw [if_neg (by simp)]
  simp only [if_neg (by simp : ¬ (false = true))]
  rw [if_neg (fun hand => htree hand.2)]
  rw [hbuf]
  have hsoc : split_or_copy [] (split || CHATGPT_SPLIT_GLOBAL) maxT acks = [[]] := by
    unfold split_or_copy
    rw [if_neg (fun hand => by have h2 := hand.2; simp [count_tokens] at h2)]
  simp [hsoc]

theorem empty_payload_transfer_witness :
    files_to_clipboard
        (Dir.mk ("r".toList) DirList.nil [(("a.txt".toList), some ("x".toList))])
        ("/r".toList) (".py".toList) false [] true true 50000
        ("Files2Clipboard.py".toList) false []
      = { commits := [[]], nothingToCopy := false } :=
  empty_payload_transfer
    (Dir.mk ("r".toList) DirList.nil [(("a.txt".toList), some ("x".toList))])
    ("/r".toList) (".py".toList) [] true 50000 ("Files2Clipboard.py".toList)
    false [] (by decide) (by decide)
